import Mathlib

/-!
Verification of the dex-sonar pattern-detection core against its source.

The definitions below are shallow embeddings of the Python sources:
* `CircularList` and its operations  — src/dex_sonar/utils/circular_list.py
  (the same class is duplicated in src/dex_sonar/network/pool_with_chart/chart.py);
* the rate limiter                   — src/dex_sonar/api/request_limits.py;
* `Trend` / `Trends` (the segment compressor), `PatternUnit` / pattern bodies,
  and `Chart.update` / `Chart.get_pattern`
                                     — src/dex_sonar/network_and_pools/pool_with_chart.py
  (the `Trends` algorithm is byte-identical in src/dex_sonar/network/pool_with_chart.py;
  the `DUMP` pattern thresholds differ between revisions, so both variants are embedded).

Modelling conventions:
* Python floats are modelled by `ℚ` (all arithmetic in these claims is exact);
* timestamps and timedeltas are minutes, modelled by `ℤ`;
* a Python `None`-able value is an `Option`; Python truthiness of a number or
  timedelta is `≠ 0`, of an object `isSome`;
* mutation is explicit state passing; a raised exception is an `Except`/`Option`
  error value, returned together with the (unchanged) state where the claim
  speaks about atomicity;
* the unbounded `while` loop of `Trends.initialize` is embedded with an explicit
  fuel argument; the fuel supplied by `trendsCompressRaw` strictly dominates the
  loop variant `3 * length - i`, which decreases at every iteration, so the
  fuel-exhaustion branch is unreachable (the invariant proofs below carry the
  variant explicitly and never rely on the exhaustion branch).
-/

/-! ### Ticks (src/dex_sonar/network_and_pools/pool_with_chart.py, `Tick`) -/

/-- A price observation.  The Python code has `CompleteTick` (with `volume`) and
`IncompleteTick` subclasses of `Tick`; they are modelled as one structure where
`volume = some v` is a complete tick and `volume = none` an incomplete one. -/
structure Tick where
  timestamp : ℤ
  price : ℚ
  volume : Option ℚ
deriving DecidableEq

instance : Inhabited Tick := ⟨⟨0, 0, none⟩⟩

/-- `isinstance(x, CompleteTick)` in the Python sources. -/
def Tick.isComplete (t : Tick) : Bool := t.volume.isSome

/-! ### Trend and the segment compressor
(src/dex_sonar/network_and_pools/pool_with_chart.py, `Trend` / `Trends`) -/

/-- `Trend`: a directional segment with its net fractional price change. -/
structure Trend where
  change : ℚ
  startTimestamp : ℤ
  endTimestamp : ℤ
deriving DecidableEq

instance : Inhabited Trend := ⟨⟨0, 0, 0⟩⟩

/-- `Trend.get_timeframe`. -/
def Trend.getTimeframe (t : Trend) : ℤ := t.endTimestamp - t.startTimestamp

/-- `Trend.get_magnitude`. -/
def Trend.getMagnitude (t : Trend) : ℚ := |t.change|

/-- `Trend.is_codirectional_with`: `self.change * other.change >= 0`. -/
def Trend.isCodirectionalWith (t other : Trend) : Bool :=
  decide (t.change * other.change ≥ 0)

/-- `Trend.__add__`: the merged segment spans the union of the two time ranges
and composes the changes multiplicatively. -/
def Trend.add (t other : Trend) : Trend :=
  let times :=
    if t.startTimestamp < other.endTimestamp then (t.startTimestamp, other.endTimestamp)
    else (other.startTimestamp, t.endTimestamp)
  { change := (1 + t.change) * (1 + other.change) - 1
    startTimestamp := times.1
    endTimestamp := times.2 }

/-- `Trends._concatenate`: `sum(trends[1:], start=trends[0])`.  Python would
raise on an empty argument; call sites always pass two or three trends. -/
def concatenateTrends : List Trend → Trend
  | [] => default
  | t :: rest => rest.foldl Trend.add t

/-- The `max_timeframe` / `max_magnitude` limits a `Trends` object is
constructed with (`None` in the `GLOBAL` view). -/
structure TrendsLimits where
  maxTimeframe : Option ℤ
  maxMagnitude : Option ℚ
deriving DecidableEq

/-- The unlimited (`GLOBAL`) configuration. -/
def noLimits : TrendsLimits := ⟨none, none⟩

/-- `Trends._are_within_limits`.  Python short-circuits on the truthiness of the
configured limit (`None` and a zero timedelta/float are both falsy). -/
def areWithinLimits (cfg : TrendsLimits) (trends : List Trend) : Bool :=
  let x := concatenateTrends trends
  let tfOk :=
    match cfg.maxTimeframe with
    | some mt => !(decide (mt ≠ 0) && decide (x.getTimeframe > mt))
    | none => true
  let magOk :=
    match cfg.maxMagnitude with
    | some mm => !(decide (mm ≠ 0) && decide (x.getMagnitude > mm))
    | none => true
  tfOk && magOk

/-- `Trends._can_be_absorbed`. -/
def canBeAbsorbed (left middle right : Trend) : Bool :=
  left.isCodirectionalWith right && !(left.isCodirectionalWith middle) &&
    decide (middle.getMagnitude ≤ min left.getMagnitude right.getMagnitude)

/-- `Trends._replace_by_concatenation`: `deque.remove` removes the first
occurrence of each given trend by value (modelled by `List.erase`), then the
concatenation is inserted at position `i`. -/
def replaceByConcatenation (l : List Trend) (i : ℕ) (trends : List Trend) : List Trend :=
  List.insertIdx i (concatenateTrends trends) (trends.foldl List.erase l)

/-- The `while i + 2 < len(self.trends)` loop of `Trends.initialize`, on the
reversed trend list.  Returns the final list together with the final loop index
(the Python code reads that index again in the trailing two-element check). -/
def trendsLoop (cfg : TrendsLimits) : ℕ → List Trend → ℕ → List Trend × ℕ
  | 0, l, i => (l, i)
  | fuel + 1, l, i =>
    if h : i + 2 < l.length then
      let t1 := l[i]
      let t2 := l[i + 1]
      let t3 := l[i + 2]
      if t1.isCodirectionalWith t2 && areWithinLimits cfg [t1, t2] then
        trendsLoop cfg fuel (replaceByConcatenation l i [t1, t2]) (i - 2)
      else if t2.isCodirectionalWith t3 && areWithinLimits cfg [t2, t3] then
        trendsLoop cfg fuel (replaceByConcatenation l (i + 1) [t2, t3]) (i - 2)
      else if canBeAbsorbed t1 t2 t3 && areWithinLimits cfg [t1, t2, t3] then
        trendsLoop cfg fuel (replaceByConcatenation l i [t1, t2, t3]) (i - 2)
      else
        trendsLoop cfg fuel l (i + 1)
    else (l, i)

/-- `Trends.initialize` after the raw trend list has been built: reverse, run
the merge loop, apply the trailing two-element merge check, reverse back.
This is also the code path taken when a `Trends` object is re-compressed from a
previous `Trends` (progressive views): the previous trend list is deep-copied
and fed through the same loop. -/
def trendsCompressRaw (cfg : TrendsLimits) (raw : List Trend) : List Trend :=
  let rev := raw.reverse
  let res := trendsLoop cfg (3 * rev.length + 1) rev 0
  let l := res.1
  let i := res.2
  let l2 :=
    if l.length = 2 then
      -- Python reads `self.trends[i]` and `self.trends[i + 1]` with the loop's
      -- final index; it would raise `IndexError` if `i + 1` were out of range,
      -- which is unreachable (the loop leaves `i = 0` whenever two trends
      -- remain, proved below).
      if h : i + 1 < l.length then
        let t1 := l[i]
        let t2 := l[i + 1]
        if t1.isCodirectionalWith t2 && areWithinLimits cfg [t1, t2] then
          replaceByConcatenation l 0 [t1, t2]
        else l
      else l
    else l
  l2.reverse

/-- The raw per-step trends built by `Trends.initialize` from a tick list:
one trend per consecutive tick pair, with change `(y - x) / x if x else 0`.
The Python code zips `prices[:-1]` with `prices[1:]` (and likewise the
timestamps), which is the same pairing as zipping the list with its tail. -/
def trendsOfTicks (ticks : List Tick) : List Trend :=
  (ticks.zip ticks.tail).map fun (ab : Tick × Tick) =>
    { change := if ab.1.price ≠ 0 then (ab.2.price - ab.1.price) / ab.1.price else 0
      startTimestamp := ab.1.timestamp
      endTimestamp := ab.2.timestamp }

/-- `Trends(ticks, ...)`: build the raw trends from ticks, then compress. -/
def trendsCompressTicks (cfg : TrendsLimits) (ticks : List Tick) : List Trend :=
  trendsCompressRaw cfg (trendsOfTicks ticks)

/-- `TrendsView.generate_all`: the accumulator loop over the enum members
`TIMEFRAME_10M`, `TIMEFRAME_15M`, `TIMEFRAME_30M`, `GLOBAL` (in that order),
each coarser view compressed from the previous one rather than from the raw
ticks.  `_TrendsViewValue.__post_init__` divides `max_magnitude` by 100, but
every member leaves it `None`. -/
def generateAllViews (ticks : List Tick) : List (List Trend) :=
  let v1 := trendsCompressTicks ⟨some 10, none⟩ ticks
  let v2 := trendsCompressRaw ⟨some 15, none⟩ v1
  let v3 := trendsCompressRaw ⟨some 30, none⟩ v2
  let v4 := trendsCompressRaw noLimits v3
  [v1, v2, v3, v4]

/-- The product of `1 + change` over a trend list (the quantity claim C2 says
the compressor conserves). -/
def changeProd (l : List Trend) : ℚ := (l.map fun t => 1 + t.change).prod

/-! ### CircularList (src/dex_sonar/utils/circular_list.py) -/

/-- The Python exception `NotEnoughItemsToPop`; its two constructors mirror the
two message branches of `CircularList.pop`. -/
inductive NotEnoughItemsToPop where
  | noItems
  | notEnough
deriving DecidableEq

/-- Errors raised by `CircularList.__getitem__`: an explicit `IndexError` for
an out-of-range integer index, and the `ZeroDivisionError` that `start %
self.size` raises on an empty buffer. -/
inductive CircAccessError where
  | indexOutOfRange
  | zeroDivision
deriving DecidableEq

/-- `CircularList`: fixed backing array (`[None] * capacity` in Python; the
placeholder slots are modelled by `default` since no valid access reads them),
a rotation offset `beginning` and the logical `size`. -/
structure CircularList (α : Type) where
  list : List α
  capacity : ℕ
  beginning : ℕ
  size : ℕ
deriving DecidableEq

/-- `CircularList.__init__`. -/
def mkCircularList (α : Type) [Inhabited α] (capacity : ℕ) : CircularList α :=
  ⟨List.replicate capacity default, capacity, 0, 0⟩

/-- `CircularList._translate_index` (Python `%` on a positive modulus agrees
with `Int.emod`). -/
def CircularList.translateIndex (cl : CircularList α) (i : ℤ) : ℤ :=
  let base : ℤ := if i ≥ 0 then (cl.beginning : ℤ) else (cl.beginning : ℤ) + (cl.size : ℤ)
  (base + i) % (cl.capacity : ℤ)

/-- `CircularList.append`. -/
def CircularList.append [Inhabited α] (cl : CircularList α) (item : α) : CircularList α :=
  let l := cl.list.set (cl.translateIndex cl.size).toNat item
  if cl.size < cl.capacity then
    { cl with list := l, size := cl.size + 1 }
  else
    { cl with list := l, beginning := (cl.translateIndex 1).toNat }

/-- `CircularList.extend`. -/
def CircularList.extend [Inhabited α] (cl : CircularList α) (items : List α) : CircularList α :=
  items.foldl CircularList.append cl

/-- `CircularList.pop`: on success only `size` shrinks (the backing array is
untouched); on failure the exception is raised before any mutation, so the
state is returned unchanged next to the error. -/
def CircularList.pop (cl : CircularList α) (n : ℕ) : CircularList α × Option NotEnoughItemsToPop :=
  if (cl.size : ℤ) - (n : ℤ) ≥ 0 then
    ({ cl with size := cl.size - n }, none)
  else if cl.size = 0 then (cl, some .noItems)
  else (cl, some .notEnough)

/-- `CircularList.__iter__`: the logical contents, oldest to newest. -/
def CircularList.toList [Inhabited α] (cl : CircularList α) : List α :=
  (List.range cl.size).map fun i => cl.list.getD ((cl.beginning + i) % cl.capacity) default

/-- Python `range(a, b, step)` over `ℤ` (empty for `step = 0`, where Python
would raise `ValueError`; no call site passes `0`). -/
def pyRange (a b step : ℤ) : List ℤ :=
  if step > 0 then
    (List.range (Int.toNat (Int.ediv (b - a + step - 1) step))).map fun k => a + step * k
  else if step < 0 then
    (List.range (Int.toNat (Int.ediv (a - b + (-step) - 1) (-step)))).map fun k => a + step * k
  else []

/-- `CircularList.__getitem__` with an integer index. -/
def CircularList.getInt [Inhabited α] (cl : CircularList α) (i : ℤ) : Except CircAccessError α :=
  if -(cl.size : ℤ) ≤ i ∧ i < (cl.size : ℤ) then
    .ok (cl.list.getD (cl.translateIndex i).toNat default)
  else .error .indexOutOfRange

/-- `CircularList.__getitem__` with a slice.  The defaults are `0`, `size`,
`1`; then `start % size` is taken (raising `ZeroDivisionError` when `size = 0`)
and `stop % size` unless `stop == size`. -/
def CircularList.getSlice [Inhabited α] (cl : CircularList α)
    (start stop step : Option ℤ) : Except CircAccessError (List α) :=
  let s := start.getD 0
  let st := stop.getD (cl.size : ℤ)
  let sp := step.getD 1
  if cl.size = 0 then .error .zeroDivision
  else
    let s := s % (cl.size : ℤ)
    let st := if st ≠ (cl.size : ℤ) then st % (cl.size : ℤ) else st
    .ok ((pyRange s st sp).map fun j => cl.list.getD (cl.translateIndex j).toNat default)

/-- The suffix slice `self.ticks[discard_index:]` used by `Chart.update`.
The error branch is unreachable there (an index was just found by iterating the
buffer, so it is non-empty). -/
def CircularList.sliceFrom [Inhabited α] (cl : CircularList α) (di : ℕ) : List α :=
  match cl.getSlice (some (di : ℤ)) none none with
  | .ok xs => xs
  | .error _ => []

/-! ### Rate limiter (src/dex_sonar/api/request_limits.py) -/

/-- The Python exception `RateLimitExceeded`. -/
inductive RateLimitExceededErr where
  | limit
deriving DecidableEq

/-- `RateLimiter._clear_outdated_requests`: the Python loop records the last
index of the initial run of entries with `timestamp.time_elapsed() >
time_period` (breaking at the first non-outdated entry) and pops exactly that
prefix, i.e. it drops the maximal outdated prefix. -/
def clearOutdatedRequests (timePeriod now : ℤ) (timeline : List ℤ) : List ℤ :=
  timeline.dropWhile fun ts => decide (now - ts > timePeriod)

/-- `RateLimiter._get_time_needed_for_request_to_be_outdated`:
`max(request_timestamp - (now - time_period), 0)`. -/
def timeNeededForRequestToBeOutdated (timePeriod now ts : ℤ) : ℤ :=
  max (ts - (now - timePeriod)) 0

/-- `RateLimiter.mark_request_sending` at time `now`: on a full window either
evict the oldest entry (permissive mode) or raise (strict mode), then append. -/
def markRequestSending (maxRequests : ℕ) (raiseOnLimit : Bool)
    (timeline : List ℤ) (now : ℤ) : Except RateLimitExceededErr (List ℤ) :=
  if timeline.length = maxRequests then
    if raiseOnLimit then .error .limit
    else .ok ((if timeline.length ≠ 0 then timeline.tail else timeline) ++ [now])
  else .ok (timeline ++ [now])

/-- `RateLimiter.get_available_requests`: prune outdated entries, then
`max - len(timeline)`.  The pruned timeline is returned as well (the Python
method mutates it in place). -/
def getAvailableRequests (maxRequests : ℕ) (timePeriod now : ℤ)
    (timeline : List ℤ) : ℤ × List ℤ :=
  let tl := clearOutdatedRequests timePeriod now timeline
  ((maxRequests : ℤ) - (tl.length : ℤ), tl)

/-- Folding `mark_request_sending` over a list of send times, starting from an
empty window (the claim C6 scenario). -/
def markAll (maxRequests : ℕ) (raiseOnLimit : Bool) (times : List ℤ) :
    Except RateLimitExceededErr (List ℤ) :=
  times.foldlM (fun tl t => markRequestSending maxRequests raiseOnLimit tl t) []

/-- `StrictRateLimiter.get_time_until_new_requests_can_be_made`: prune, then
return the time-to-expiry of `self.timeline[-1]` — the most recent tracked
timestamp — ignoring the `requests` argument; zero when the window is empty. -/
def strictGetTimeUntil (timePeriod now : ℤ) (timeline : List ℤ)
    (requests : Option ℕ) : ℤ :=
  let _ := requests
  let tl := clearOutdatedRequests timePeriod now timeline
  match tl.getLast? with
  | some ts => timeNeededForRequestToBeOutdated timePeriod now ts
  | none => 0

/-- Modelled from the spec (refinement comparison for claim C5): the claim
states that the strict policy returns the time until the single OLDEST tracked
timestamp leaves the window.  This definition follows the claim's words; it is
compared against `strictGetTimeUntil`, which embeds the source. -/
def strictOldestSpec (timePeriod now : ℤ) (timeline : List ℤ)
    (requests : Option ℕ) : ℤ :=
  let _ := requests
  let tl := clearOutdatedRequests timePeriod now timeline
  match tl.head? with
  | some ts => timeNeededForRequestToBeOutdated timePeriod now ts
  | none => 0

/-! ### Pattern matching
(src/dex_sonar/network_and_pools/pool_with_chart.py, `PatternUnit` /
`_PatternBody` / `Pattern`; the same classes appear in
src/dex_sonar/network/pool_with_chart.py with a different `DUMP` threshold) -/

/-- The part of `NetworkPool` that `PatternUnit._scale` reads. -/
structure PoolInfo where
  liquidity : Option ℚ
deriving DecidableEq

/-- `Trends.__getitem__` with a slice (step defaulting to 1, the only step the
pattern matcher uses): `start % length` and, unless `stop == length`,
`stop % length`.  On an empty `Trends` Python would raise `ZeroDivisionError`;
both call sites guard the length, so the `len = 0` case is unreachable. -/
def trendsGetSlice (l : List Trend) (ostart ostop : Option ℤ) : List Trend :=
  let len : ℤ := (l.length : ℤ)
  let start := ostart.getD 0
  let stop := ostop.getD len
  let start := start % len
  let stop := if stop ≠ len then stop % len else stop
  (pyRange start stop 1).map fun j => l.getD j.toNat default

/-- A pattern unit; `__post_init__` divides `min_change` by 100, so build
values with `mkPatternUnit`. -/
structure PatternUnit where
  minChange : ℚ
  minTimeframe : Option ℤ
  maxTimeframe : Option ℤ
deriving DecidableEq

instance : Inhabited PatternUnit := ⟨⟨0, none, none⟩⟩

/-- `PatternUnit.__init__` + `__post_init__` (the declared `min_change` is a
percentage). -/
def mkPatternUnit (minChangePercent : ℚ) (minTf maxTf : Option ℤ) : PatternUnit :=
  ⟨minChangePercent / 100, minTf, maxTf⟩

/-- `PatternUnit.get_magnitude`. -/
def PatternUnit.getMagnitude (u : PatternUnit) : ℚ := |u.minChange|

/-- `PatternUnit._scale` with `base = 100_000`, `slope = 2.5`: in testing mode
the threshold is divided by 5; otherwise low-liquidity pools get a linear
penalty.  Python truthiness: the pool must be present and its liquidity
non-`None` and non-zero. -/
def scaleMagnitude (testingMode : Bool) (x : ℚ) (pool : Option PoolInfo) : ℚ :=
  if testingMode then x / 5
  else
    match pool with
    | some p =>
      match p.liquidity with
      | some lq =>
        if lq ≠ 0 ∧ lq < 100000 then x * (1 + (5 / 2) * ((100000 - lq) / 100000)) else x
      | none => x
    | none => x

/-- `PatternUnit.match`: same sign, scaled magnitude threshold, and the
optional (truthy) min/max timeframe bounds. -/
def patternUnitMatch (testingMode : Bool) (u : PatternUnit) (t : Trend)
    (pool : Option PoolInfo) : Bool :=
  decide (u.minChange * t.change ≥ 0) &&
  decide (t.getMagnitude ≥ scaleMagnitude testingMode u.getMagnitude pool) &&
  !(match u.minTimeframe with
    | some mt => decide (mt ≠ 0) && decide (t.getTimeframe < mt)
    | none => false) &&
  !(match u.maxTimeframe with
    | some mt => decide (mt ≠ 0) && decide (t.getTimeframe > mt)
    | none => false)

/-- `_PatternMatchBody`. -/
structure PatternMatchBody where
  startTimestamp : ℤ
  endTimestamp : ℤ
  significant : Bool
  magnitude : ℚ
deriving DecidableEq

instance : Inhabited PatternMatchBody := ⟨⟨0, 0, false, 0⟩⟩

/-- `_PatternBody`; `__init__` divides a truthy `significance_threshold` by 100
and keeps `None` otherwise, so build values with `mkPatternBody`. -/
structure PatternBody where
  units : List PatternUnit
  significanceThreshold : Option ℚ
deriving DecidableEq

/-- `_PatternBody.__init__`. -/
def mkPatternBody (units : List PatternUnit) (sig : Option ℚ) : PatternBody :=
  ⟨units, match sig with
          | some s => if s ≠ 0 then some (s / 100) else none
          | none => none⟩

/-- Helper for `magnitude_index`: Python `max(enumerate(units), key=...)` keeps
the first index among equal keys, replacing only on a strictly larger one. -/
def magnitudeIndexAux : ℕ → ℕ → ℚ → List PatternUnit → ℕ
  | _, best, _, [] => best
  | i, best, bestMag, u :: rest =>
    if u.getMagnitude > bestMag then magnitudeIndexAux (i + 1) i u.getMagnitude rest
    else magnitudeIndexAux (i + 1) best bestMag rest

/-- `self.magnitude_index`: index of the unit with the largest magnitude. -/
def PatternBody.magnitudeIndex (b : PatternBody) : ℕ :=
  match b.units with
  | [] => 0
  | u :: rest => magnitudeIndexAux 1 0 u.getMagnitude rest

/-- `_PatternBody._extract_info`: window timestamps, significance flag
(`True` when no threshold is configured, else magnitude over required
magnitude compared with the threshold) and matched magnitude. -/
def PatternBody.extractInfo (b : PatternBody) (slice : List Trend) : PatternMatchBody :=
  let mi := b.magnitudeIndex
  let magnitude := (slice.getD mi default).getMagnitude
  let patternMagnitude := (b.units.getD mi default).getMagnitude
  { startTimestamp := (slice.headD default).startTimestamp
    endTimestamp := (slice.getLastD default).endTimestamp
    significant :=
      match b.significanceThreshold with
      | none => true
      | some th => decide (magnitude / patternMagnitude ≥ th)
    magnitude := magnitude }

/-- `_PatternBody._match`: `zip` truncates to the shorter list, and every
unit must match its segment. -/
def PatternBody.unitsMatch (testingMode : Bool) (b : PatternBody)
    (slice : List Trend) (pool : Option PoolInfo) : Bool :=
  (b.units.zip slice).all fun p => patternUnitMatch testingMode p.1 p.2 pool

/-- `_PatternBody.match`: try the last `len(units)` segments; failing that,
with a truthy delay tolerance and the latest segment's own timeframe within
it, try the `len(units)` segments just before the latest one. -/
def PatternBody.matchOn (testingMode : Bool) (b : PatternBody)
    (trends : List Trend) (pool : Option PoolInfo)
    (delayTolerance : Option ℤ) : Option PatternMatchBody :=
  let L := b.units.length
  if decide (trends.length ≥ L) &&
     b.unitsMatch testingMode (trendsGetSlice trends (some (-(L : ℤ))) none) pool then
    some (b.extractInfo (trendsGetSlice trends (some (-(L : ℤ))) none))
  else
    match delayTolerance with
    | some dt =>
      if decide (dt ≠ 0) && decide ((trends.length : ℤ) - 1 ≥ (L : ℤ)) &&
         decide ((trends.getLastD default).getTimeframe ≤ dt) &&
         b.unitsMatch testingMode (trendsGetSlice trends (some (-(L : ℤ) - 1)) (some (-1))) pool then
        some (b.extractInfo (trendsGetSlice trends (some (-(L : ℤ) - 1)) (some (-1))))
      else none
    | none => none

/-- `Pattern.DUMP` of src/dex_sonar/network_and_pools/pool_with_chart.py:
at least 8% drop within 30 minutes, no significance threshold. -/
def patternDump30 : PatternBody := mkPatternBody [mkPatternUnit (-8) none (some 30)] none

/-- `Pattern.DUMP` of src/dex_sonar/network/pool_with_chart.py:
at least 15% drop within 1 hour, no significance threshold. -/
def patternDump60 : PatternBody := mkPatternBody [mkPatternUnit (-15) none (some 60)] none

/-- `Pattern.DOWNTREND`. -/
def patternDowntrend : PatternBody :=
  mkPatternBody [mkPatternUnit (-30) none (some 120)] (some 100000)

/-- `Pattern.REVERSAL`. -/
def patternReversal : PatternBody :=
  mkPatternBody [mkPatternUnit (-30) (some 120) none, mkPatternUnit 10 (some 30) none]
    (some 100000)

/-- `Pattern.PUMP`. -/
def patternPump : PatternBody :=
  mkPatternBody [mkPatternUnit 50 none (some 60)] (some 100000)

/-- `Pattern.UPTREND`. -/
def patternUptrend : PatternBody :=
  mkPatternBody [mkPatternUnit 20 (some 120) none] (some 100000)

/-- `Pattern.SLOW_UPTREND`. -/
def patternSlowUptrend : PatternBody :=
  mkPatternBody [mkPatternUnit 10 (some 720) none] (some 100000)

/-- The `Pattern` enum of src/dex_sonar/network_and_pools/pool_with_chart.py in
declaration order (the scan order of `Pattern.match_any`). -/
def patternsPoolsWithChart : List PatternBody :=
  [patternDump30, patternDowntrend, patternReversal, patternPump, patternUptrend,
   patternSlowUptrend]

/-- `Pattern.match_any`: all patterns against all progressive views (outer loop
over patterns in enum order, inner loop over the views, optionally reversed so
the `GLOBAL` view is scanned first), yielding every match in scan order. -/
def matchAnyList (testingMode : Bool) (patterns : List PatternBody)
    (ticks : List Tick) (pool : Option PoolInfo) (delayTolerance : Option ℤ)
    (reverseViews : Bool) : List PatternMatchBody :=
  let views := generateAllViews ticks
  let views := if reverseViews then views.reverse else views
  patterns.foldr
    (fun p acc => (views.filterMap fun v => p.matchOn testingMode v pool delayTolerance) ++ acc)
    []

/-! ### Chart (src/dex_sonar/network_and_pools/pool_with_chart.py, `Chart`) -/

/-- The `for match in Pattern.match_any(...)` loop of `Chart.get_pattern`:
skip a match when `only_new` is set, a previous end timestamp is recorded, the
match starts strictly before it, and either no repetition-reset cooldown is
configured (a zero timedelta is falsy) or the previous end is within the
cooldown of `now` (`time_elapsed`); otherwise record the match's end timestamp
and return the match.  An exhausted generator returns `None` with the recorded
state untouched. -/
def chartGetPatternLoop (onlyNew : Bool) (cooldown now : ℤ) :
    Option ℤ → List PatternMatchBody → Option PatternMatchBody × Option ℤ
  | prevEnd, [] => (none, prevEnd)
  | prevEnd, m :: rest =>
    if onlyNew &&
       (match prevEnd with
        | some e =>
          decide (m.startTimestamp < e) &&
            (decide (cooldown = 0) || decide (now - e < cooldown))
        | none => false) then
      chartGetPatternLoop onlyNew cooldown now prevEnd rest
    else (some m, some m.endTimestamp)

/-- `Chart.get_pattern`: run `Pattern.match_any` over the buffer's ticks with
`reverse_trends_views_traversal=True` and feed the matches through the
deduplication loop.  Returns the reported match (if any) and the new recorded
previous-match end timestamp. -/
def chartGetPattern (testingMode : Bool) (patterns : List PatternBody)
    (ticks : List Tick) (pool : Option PoolInfo) (delayTolerance : Option ℤ)
    (cooldown : ℤ) (prevEnd : Option ℤ) (now : ℤ) (onlyNew : Bool) :
    Option PatternMatchBody × Option ℤ :=
  chartGetPatternLoop onlyNew cooldown now prevEnd
    (matchAnyList testingMode patterns ticks pool delayTolerance true)

/-- The list-input path of `Chart.update`: locate the first buffered tick at or
after the new data's start, discard that tail (`pop`), re-append the strictly
newer discarded entries not covered by the new batch, and extend. -/
def chartUpdateList (cl : CircularList Tick) (newTicks : List Tick) : CircularList Tick :=
  match newTicks with
  | [] => cl
  | t0 :: rest =>
    match cl.toList.findIdx? (fun x => decide (x.timestamp ≥ t0.timestamp)) with
    | some di =>
      let discarded := cl.sliceFrom di
      -- `self.ticks.pop(len(discarded_ticks))` never fails here: the slice's
      -- length is at most the buffer's size.
      let cl2 := (cl.pop discarded.length).1
      let toAppend :=
        match discarded.findIdx? (fun x => decide (x.timestamp > ((t0 :: rest).getLastD t0).timestamp)) with
        | some si => (t0 :: rest) ++ discarded.drop si
        | none => t0 :: rest
      cl2.extend toAppend
    | none => cl.extend (t0 :: rest)

/-- The single-tick path of `Chart.update`: an `IncompleteTick` whose timestamp
already carries a `CompleteTick` is ignored before any mutation; otherwise the
tick is wrapped in a list and handled by the list path. -/
def chartUpdateSingle (cl : CircularList Tick) (t : Tick) : CircularList Tick :=
  if !t.isComplete &&
     cl.toList.any (fun x => x.isComplete && decide (x.timestamp = t.timestamp)) then cl
  else chartUpdateList cl [t]

/-- The `Chart` state the claims speak about: the tick buffer and the
pattern-deduplication marker `previous_pattern_end_timestamp`. -/
structure ChartState where
  ticks : CircularList Tick
  previousPatternEndTimestamp : Option ℤ
deriving DecidableEq

/-- `Chart.update` with a single tick, at the level of the whole chart state
(`update` never touches the deduplication marker). -/
def chartStateUpdateSingle (s : ChartState) (t : Tick) : ChartState :=
  { s with ticks := chartUpdateSingle s.ticks t }

/-! ### Invariant predicates and concrete inputs used by the claims -/

/-- Adjacent trends are chained back-to-front, the order in which
`Trends.initialize` processes them (each trend starts where the next, older
one ends). -/
def ChainedBack (l : List Trend) : Prop :=
  List.Chain' (fun a b => a.startTimestamp = b.endTimestamp) l

/-- Adjacent trends are chained front-to-back (chronological order). -/
def ChainedFwd (l : List Trend) : Prop :=
  List.Chain' (fun a b => a.endTimestamp = b.startTimestamp) l

/-- Every trend spans a strictly positive timeframe. -/
def ProperAll (l : List Trend) : Prop :=
  ∀ t ∈ l, t.startTimestamp < t.endTimestamp

/-- All adjacent pairs strictly below index `i` fail the codirectionality
test (the processed region of the merge loop). -/
def NoCodirBelow (l : List Trend) (i : ℕ) : Prop :=
  ∀ k (h : k + 1 < l.length), k < i →
    (l[k]).isCodirectionalWith (l[k+1]) = false

/-- When the loop index was reached by advancing (`i ≥ 1`), the pair at the
index itself has already been checked. -/
def CodirFreeAt (l : List Trend) (i : ℕ) : Prop :=
  1 ≤ i → ∀ (h : i + 1 < l.length),
    (l[i]).isCodirectionalWith (l[i+1]) = false

/-- The no-same-sign-adjacent property claim C1 asserts of the compressor
output: every adjacent pair of segments has changes of strictly opposite
sign. -/
def NoAdjacentSameSign (l : List Trend) : Prop :=
  ∀ k (h : k + 1 < l.length),
    (l[k]).change * (l[k+1]).change < 0

/-- Strictly increasing tick timestamps (the tick-buffer ordering
invariant). -/
def TicksStrictlyIncreasing (ticks : List Tick) : Prop :=
  ticks.Pairwise fun a b => a.timestamp < b.timestamp

/-- Claim C1's counterexample input: two consecutive +10% moves 9 minutes
apart, whose merge would span 18 minutes. -/
def c1CexTicks : List Tick := [⟨0, 100, none⟩, ⟨9, 110, none⟩, ⟨18, 121, none⟩]

/-- Claim C3's input: prices 100, 100, 100, 70 at 1-minute spacing. -/
def c3Ticks : List Tick := [⟨0, 100, none⟩, ⟨1, 100, none⟩, ⟨2, 100, none⟩, ⟨3, 70, none⟩]

/-- Claim C4's counterexample input: a 10% drop followed by a +50% move. -/
def c4CexTicks : List Tick := [⟨0, 100, none⟩, ⟨1, 90, none⟩, ⟨2, 135, none⟩]

/-- Claim C4's witness input: a single 10% drop. -/
def c4WitnessTicks : List Tick := [⟨0, 100, none⟩, ⟨1, 90, none⟩]

/-! ## Theorems -/

/-! ### General list helpers -/

theorem dropWhile_eq_self_of_all {α : Type} {p : α → Bool} :
    ∀ l : List α, (∀ x ∈ l, p x = false) → l.dropWhile p = l := by
  intro l h
  induction l with
  | nil => rfl
  | cons a l ih =>
    rw [List.dropWhile_cons_of_neg (by simp [h a (by simp)])]

theorem dropWhile_eq_nil_of_all {α : Type} {p : α → Bool} :
    ∀ l : List α, (∀ x ∈ l, p x = true) → l.dropWhile p = [] := by
  intro l h
  induction l with
  | nil => rfl
  | cons a l ih =>
    rw [List.dropWhile_cons_of_pos (h a (by simp))]
    exact ih fun x hx => h x (by simp [hx])

/-! ### Claim C10: slicing an empty CircularList -/

/-- C10: on an empty tick buffer every slice access — the full slice
included — raises the `ZeroDivisionError` coming from `start % self.size`
instead of returning the empty list. -/
theorem c10_empty_slice {α : Type} [Inhabited α] (cl : CircularList α)
    (h : cl.size = 0) (start stop step : Option ℤ) :
    cl.getSlice start stop step = .error .zeroDivision := by
  simp [CircularList.getSlice, h]

theorem c10_empty_slice_witness :
    (mkCircularList ℤ 5).getSlice none none none = .error .zeroDivision :=
  c10_empty_slice (mkCircularList ℤ 5) rfl none none none

/-! ### Claim C9: CircularList.pop -/

/-- C9: `pop n` on a buffer holding `size` items fails with
`NotEnoughItemsToPop` and leaves the state untouched when `n > size`, and
otherwise shrinks the logical contents to exactly the first `size - n`
items. -/
theorem c9_pop {α : Type} [Inhabited α] (cl : CircularList α) (n : ℕ) :
    (cl.size < n →
      cl.pop n = (cl, some (if cl.size = 0 then .noItems else .notEnough))) ∧
    (n ≤ cl.size →
      cl.pop n = ({ cl with size := cl.size - n }, none) ∧
      ({ cl with size := cl.size - n } : CircularList α).toList =
        cl.toList.take (cl.size - n)) := by
  constructor
  · intro h
    have hneg : ¬((cl.size : ℤ) - (n : ℤ) ≥ 0) := by omega
    rw [CircularList.pop, if_neg hneg]
    by_cases h0 : cl.size = 0 <;> simp [h0]
  · intro h
    have hpos : (cl.size : ℤ) - (n : ℤ) ≥ 0 := by omega
    refine ⟨by rw [CircularList.pop, if_pos hpos], ?_⟩
    show (List.range (cl.size - n)).map _ = ((List.range cl.size).map _).take (cl.size - n)
    rw [← List.map_take, List.take_range, Nat.min_eq_left (by omega)]

theorem c9_pop_witness :
    ((mkCircularList ℤ 3).extend [10, 20]).pop 5 =
      ((mkCircularList ℤ 3).extend [10, 20], some .notEnough) ∧
    (((mkCircularList ℤ 3).extend [10, 20]).pop 1).1.toList = [10] := by
  have h := c9_pop ((mkCircularList ℤ 3).extend [10, 20]) 5
  have h2 := c9_pop ((mkCircularList ℤ 3).extend [10, 20]) 1
  refine ⟨?_, ?_⟩
  · have := h.1 (by decide)
    simpa using this
  · have := (h2.2 (by decide)).2
    rw [(h2.2 (by decide)).1]
    simpa using this

/-! ### Claim C5: the strict rate limiter's wait time -/

/-- C5 counterexample: with period 60 at time 70 and tracked timestamps
`[20, 50]`, the strict limiter returns the newest timestamp's time-to-expiry
(40), not the oldest's (10) as the claim states. -/
theorem c5_counterexample :
    strictGetTimeUntil 60 70 [20, 50] (some 1) = 40 ∧
    strictOldestSpec 60 70 [20, 50] (some 1) = 10 ∧
    strictGetTimeUntil 60 70 [20, 50] (some 1) ≠
      strictOldestSpec 60 70 [20, 50] (some 1) := by
  refine ⟨by decide, by decide, by decide⟩

/-- C5 (corrected): after pruning, the strict limiter returns the remaining
time until the NEWEST tracked timestamp leaves the sliding window, for every
value of the (ignored) requests argument, and zero when the pruned window is
empty. -/
theorem c5_amended (timePeriod now : ℤ) (timeline : List ℤ) (n m : Option ℕ) :
    strictGetTimeUntil timePeriod now timeline n =
      strictGetTimeUntil timePeriod now timeline m ∧
    (∀ ts, (clearOutdatedRequests timePeriod now timeline).getLast? = some ts →
      strictGetTimeUntil timePeriod now timeline n =
        timeNeededForRequestToBeOutdated timePeriod now ts) ∧
    ((clearOutdatedRequests timePeriod now timeline) = [] →
      strictGetTimeUntil timePeriod now timeline n = 0) := by
  refine ⟨rfl, ?_, ?_⟩
  · intro ts hts
    simp [strictGetTimeUntil, hts]
  · intro hnil
    simp [strictGetTimeUntil, hnil]

theorem c5_amended_witness :
    strictGetTimeUntil 60 70 [20, 50] (some 3) =
      timeNeededForRequestToBeOutdated 60 70 50 ∧
    strictGetTimeUntil 60 100 [20] none = 0 :=
  ⟨(c5_amended 60 70 [20, 50] (some 3) none).2.1 50 (by decide),
   (c5_amended 60 100 [20] none (some 1)).2.2 (by decide)⟩

/-! ### Claim C6: rate limiter conservation -/

theorem markAll_from_acc (maxR : ℕ) (flag : Bool) :
    ∀ (times acc : List ℤ), acc.length + times.length ≤ maxR →
      List.foldlM (fun tl t => markRequestSending maxR flag tl t) acc times =
        .ok (acc ++ times) := by
  intro times
  induction times with
  | nil => intro acc _; simp; rfl
  | cons t ts ih =>
    intro acc h
    have hne : acc.length ≠ maxR := by simp at h; omega
    rw [List.foldlM_cons, markRequestSending, if_neg hne]
    show List.foldlM _ (acc ++ [t]) ts = _
    rw [ih (acc ++ [t]) (by simp at h ⊢; omega)]
    simp

/-- C6: starting from an empty window, `k ≤ max` calls to
`mark_request_sending` record exactly the `k` send times (no eviction and no
exception in either mode); while none of them is outdated the available count
is `max - k`, and once all of them are outdated it is `max` again. -/
theorem c6_conservation (maxR : ℕ) (flag : Bool) (period : ℤ)
    (times : List ℤ) (now1 now2 : ℤ)
    (hk : times.length ≤ maxR)
    (h1 : ∀ t ∈ times, ¬(now1 - t > period))
    (h2 : ∀ t ∈ times, now2 - t > period) :
    markAll maxR flag times = .ok times ∧
    (getAvailableRequests maxR period now1 times).1 = (maxR : ℤ) - (times.length : ℤ) ∧
    (getAvailableRequests maxR period now2 times).1 = (maxR : ℤ) := by
  refine ⟨?_, ?_, ?_⟩
  · have := markAll_from_acc maxR flag times [] (by simpa)
    simpa [markAll] using this
  · have hdrop : clearOutdatedRequests period now1 times = times :=
      dropWhile_eq_self_of_all times (fun x hx => by simp [h1 x hx])
    simp [getAvailableRequests, hdrop]
  · have hdrop : clearOutdatedRequests period now2 times = [] :=
      dropWhile_eq_nil_of_all times (fun x hx => by simp [h2 x hx])
    simp [getAvailableRequests, hdrop]

theorem c6_conservation_witness :
    markAll 3 true [0, 1, 2] = .ok [0, 1, 2] ∧
    (getAvailableRequests 3 60 50 [0, 1, 2]).1 = 0 ∧
    (getAvailableRequests 3 60 100 [0, 1, 2]).1 = 3 := by
  have h := c6_conservation 3 true 60 [0, 1, 2] 50 100 (by decide)
    (by decide) (by decide)
  exact ⟨h.1, by simpa using h.2.1, h.2.2⟩

/-! ### Claim C7: zero-price steps -/

/-- C7: the per-step change computation is total — it produces exactly one
change per consecutive tick pair — and a step starting from a zero price has
change 0 (the explicit guard; no division is attempted). -/
theorem c7_zero_price (ticks : List Tick) :
    (trendsOfTicks ticks).length = ticks.length - 1 ∧
    ∀ j (h : j + 1 < ticks.length),
      (ticks[j]).price = 0 →
      ((trendsOfTicks ticks).get ⟨j, by
        simp only [trendsOfTicks, List.length_map, List.length_zip, List.length_tail]
        omega⟩).change = 0 := by
  constructor
  · simp only [trendsOfTicks, List.length_map, List.length_zip, List.length_tail]
    omega
  · intro j h hp
    simp only [List.get_eq_getElem]
    simp only [trendsOfTicks, List.getElem_map, List.getElem_zip, List.getElem_tail]
    simp [hp]

theorem c7_zero_price_witness :
    (trendsOfTicks [⟨0, 0, none⟩, ⟨1, 5, none⟩]).length = 1 ∧
    ((trendsOfTicks [⟨0, 0, none⟩, ⟨1, 5, none⟩]).get ⟨0, by decide⟩).change = 0 :=
  ⟨(c7_zero_price [⟨0, 0, none⟩, ⟨1, 5, none⟩]).1,
   (c7_zero_price [⟨0, 0, none⟩, ⟨1, 5, none⟩]).2 0 (by decide) (by decide)⟩

/-! ### Claim C8: Chart.update ignores a stale Incomplete tick -/

/-- C8: updating a chart with a single Incomplete tick whose timestamp already
carries a Complete tick leaves the whole chart state — tick buffer and
pattern-deduplication marker — unchanged. -/
theorem c8_incomplete_tick_ignored (s : ChartState) (t : Tick)
    (hinc : t.volume = none)
    (hdup : s.ticks.toList.any
      (fun x => x.isComplete && decide (x.timestamp = t.timestamp)) = true) :
    chartStateUpdateSingle s t = s := by
  have h1 : t.isComplete = false := by rw [Tick.isComplete, hinc]; rfl
  have h2 : (!t.isComplete &&
      s.ticks.toList.any (fun x => x.isComplete && decide (x.timestamp = t.timestamp))) = true := by
    rw [h1, hdup]; rfl
  have : chartUpdateSingle s.ticks t = s.ticks := by
    rw [chartUpdateSingle, if_pos h2]
  simp [chartStateUpdateSingle, this]

theorem c8_incomplete_tick_ignored_witness :
    chartStateUpdateSingle ⟨(mkCircularList Tick 3).append ⟨5, 2, some 7⟩, some 99⟩ ⟨5, 3, none⟩ =
      ⟨(mkCircularList Tick 3).append ⟨5, 2, some 7⟩, some 99⟩ :=
  c8_incomplete_tick_ignored _ ⟨5, 3, none⟩ rfl (by decide)

/-! ### Claim C3: the DUMP end-to-end scenario -/

/-- C3: ticks `[100, 100, 100, 70]` at 1-minute spacing compress to exactly
one segment of change `-0.30` (in every progressive view); the `DUMP` pattern
unit of src/dex_sonar/network/pool_with_chart.py (at least 15% drop within 60
minutes, no significance threshold) matches it, the reported match spans the
whole window with magnitude `0.30` and is significant, and the magnitude
ratio used by `_extract_info` is `0.30 / 0.15 = 2`. -/
theorem c3_dump_scenario :
    trendsCompressTicks noLimits c3Ticks =
      [{ change := -3/10, startTimestamp := 0, endTimestamp := 3 }] ∧
    (∀ v ∈ generateAllViews c3Ticks,
      v = [{ change := -3/10, startTimestamp := 0, endTimestamp := 3 }]) ∧
    patternDump60.matchOn false (trendsCompressTicks noLimits c3Ticks) none none =
      some { startTimestamp := 0, endTimestamp := 3, significant := true,
             magnitude := 3/10 } ∧
    (3/10 : ℚ) / (patternDump60.units.headD default).getMagnitude = 2 :=
  of_decide_eq_true (by with_unfolding_all exact rfl)

/-! ### Claim C1, counterexample: a capped view keeps same-sign neighbours -/

/-- C1 counterexample: under the 10-minute timeframe cap (the pipeline's first
view), the ticks of `c1CexTicks` compress to two adjacent `+10%` segments —
the merge is rejected because it would span 18 minutes — so the claimed
invariant fails for the capped views. -/
theorem c1_counterexample :
    trendsCompressTicks ⟨some 10, none⟩ c1CexTicks =
      [{ change := 1/10, startTimestamp := 0, endTimestamp := 9 },
       { change := 1/10, startTimestamp := 9, endTimestamp := 18 }] ∧
    (generateAllViews c1CexTicks).head? =
      some [{ change := 1/10, startTimestamp := 0, endTimestamp := 9 },
            { change := 1/10, startTimestamp := 9, endTimestamp := 18 }] ∧
    ¬ NoAdjacentSameSign (trendsCompressTicks ⟨some 10, none⟩ c1CexTicks) := by
  refine ⟨of_decide_eq_true (by with_unfolding_all exact rfl),
    of_decide_eq_true (by with_unfolding_all exact rfl),
    fun hP => absurd
      (hP 0 (of_decide_eq_true (by with_unfolding_all exact rfl)))
      (of_decide_eq_true (by with_unfolding_all exact rfl))⟩

/-! ### Claim C4: pattern deduplication across two calls -/

/-- C4 counterexample: on the unchanged buffer `c4CexTicks` (drop then surge),
with a 5-minute delay tolerance and a 3-hour repetition-reset cooldown, the
first `get_pattern(only_new=True)` call returns the delayed `DUMP` match
(window `[0, 1]`, start strictly before end) and records end timestamp 1; the
immediately following call — one minute later, well within the cooldown — does
NOT return `None`: the `PUMP` match over the final segment starts exactly at
the recorded end timestamp, escapes the `match.start < previous_end`
suppression, and is returned. -/
theorem c4_counterexample :
    chartGetPattern false patternsPoolsWithChart c4CexTicks none (some 5) 180 none 2 true =
      (some { startTimestamp := 0, endTimestamp := 1, significant := true,
              magnitude := 1/10 }, some 1) ∧
    (chartGetPattern false patternsPoolsWithChart c4CexTicks none (some 5) 180 (some 1) 2 true).1 =
      some { startTimestamp := 1, endTimestamp := 2, significant := false,
             magnitude := 1/2 } ∧
    (0 : ℤ) < 1 ∧ (2 : ℤ) - 1 < 180 :=
  of_decide_eq_true (by with_unfolding_all exact rfl)

theorem chartGetPatternLoop_state_of_some (onlyNew : Bool) (cooldown now : ℤ) :
    ∀ (ms : List PatternMatchBody) (prevEnd : Option ℤ)
      (m : PatternMatchBody) (s1 : Option ℤ),
      chartGetPatternLoop onlyNew cooldown now prevEnd ms = (some m, s1) →
      s1 = some m.endTimestamp := by
  intro ms
  induction ms with
  | nil => intro pe m s1 h; simp [chartGetPatternLoop] at h
  | cons a rest ih =>
    intro pe m s1 h
    simp only [chartGetPatternLoop] at h
    split at h
    · exact ih pe m s1 h
    · have h1 : some a = some m := congrArg Prod.fst h
      have h2 : some a.endTimestamp = s1 := congrArg Prod.snd h
      obtain rfl : a = m := by injection h1
      exact h2.symm

theorem chartGetPatternLoop_all_suppressed (cooldown now e : ℤ) :
    ∀ (ms : List PatternMatchBody),
      (∀ m' ∈ ms, m'.startTimestamp < e) →
      cooldown ≠ 0 → now - e < cooldown →
      chartGetPatternLoop true cooldown now (some e) ms = (none, some e) := by
  intro ms hall hc hw
  induction ms with
  | nil => rfl
  | cons a rest ih =>
    simp only [chartGetPatternLoop]
    rw [if_pos]
    · exact ih fun m' hm' => hall m' (by simp [hm'])
    · have ha : a.startTimestamp < e := hall a (by simp)
      simp [ha, hw]

/-- C4 (corrected): with the tick buffer unchanged, the first call returning a
match `m` records `m`'s end timestamp; on a second call within the (nonzero)
repetition-reset cooldown every produced match whose window starts strictly
before the recorded end — in particular the same match, whose start precedes
its end — is suppressed, and the second call returns `None` precisely when
every match produced from the unchanged buffer starts strictly before the
recorded end (with a configured delay tolerance a pattern may match a window
ending before the last tick, and a later-starting match then escapes
suppression, as `c4_counterexample` shows). -/
theorem c4_amended (testingMode : Bool) (patterns : List PatternBody)
    (ticks : List Tick) (pool : Option PoolInfo) (delayTolerance : Option ℤ)
    (cooldown now1 now2 : ℤ) (s0 : Option ℤ) (m : PatternMatchBody) (s1 : Option ℤ)
    (hfirst : chartGetPattern testingMode patterns ticks pool delayTolerance
      cooldown s0 now1 true = (some m, s1))
    (hall : ∀ m' ∈ matchAnyList testingMode patterns ticks pool delayTolerance true,
      m'.startTimestamp < m.endTimestamp)
    (hcool : cooldown ≠ 0) (hwithin : now2 - m.endTimestamp < cooldown) :
    s1 = some m.endTimestamp ∧
    chartGetPattern testingMode patterns ticks pool delayTolerance
      cooldown s1 now2 true = (none, s1) := by
  have hs1 : s1 = some m.endTimestamp :=
    chartGetPatternLoop_state_of_some true cooldown now1 _ s0 m s1 hfirst
  refine ⟨hs1, ?_⟩
  rw [hs1, chartGetPattern]
  exact chartGetPatternLoop_all_suppressed cooldown now2 m.endTimestamp _ hall hcool hwithin

theorem c4_amended_witness :
    chartGetPattern false patternsPoolsWithChart c4WitnessTicks none (some 5) 180
      (some 1) 1 true = (none, some 1) :=
  (c4_amended false patternsPoolsWithChart c4WitnessTicks none (some 5) 180 1 1 none
    { startTimestamp := 0, endTimestamp := 1, significant := true, magnitude := 1/10 }
    (some 1)
    (of_decide_eq_true (by with_unfolding_all exact rfl))
    (of_decide_eq_true (by with_unfolding_all exact rfl))
    (by decide) (by decide)).2

/-! ### Claim C2: multiplicative composition and conservation of total change -/

theorem foldl_erase_eq_diff {α : Type} [DecidableEq α] :
    ∀ (ts l : List α), ts.foldl List.erase l = l.diff ts := by
  intro ts
  induction ts with
  | nil => intro l; simp
  | cons a ts ih => intro l; rw [List.foldl_cons, ih, List.diff_cons]

theorem pair_sublist (l : List Trend) (i : ℕ) (h : i + 1 < l.length) :
    List.Sublist [l[i], l[i+1]] l := by
  have hd : l.drop i = l[i] :: l.drop (i + 1) :=
    List.drop_eq_getElem_cons (Nat.lt_of_succ_lt h)
  have hd2 : l.drop (i + 1) = l[i+1] :: l.drop (i + 2) :=
    List.drop_eq_getElem_cons h
  have hsub : List.Sublist [l[i], l[i+1]] (l.drop i) := by
    rw [hd, hd2]
    exact List.Sublist.cons₂ _ (List.Sublist.cons₂ _ (List.nil_sublist _))
  exact hsub.trans (List.drop_sublist ..)

theorem triple_sublist (l : List Trend) (i : ℕ) (h : i + 2 < l.length) :
    List.Sublist [l[i], l[i+1], l[i+2]] l := by
  have hd : l.drop i = l[i] :: l.drop (i + 1) :=
    List.drop_eq_getElem_cons (by omega)
  have hd2 : l.drop (i + 1) = l[i+1] :: l.drop (i + 2) :=
    List.drop_eq_getElem_cons (by omega)
  have hd3 : l.drop (i + 2) = l[i+2] :: l.drop (i + 3) :=
    List.drop_eq_getElem_cons h
  have hsub : List.Sublist [l[i], l[i+1], l[i+2]] (l.drop i) := by
    rw [hd, hd2, hd3]
    exact List.Sublist.cons₂ _ (List.Sublist.cons₂ _ (List.Sublist.cons₂ _ (List.nil_sublist _)))
  exact hsub.trans (List.drop_sublist ..)

theorem insertIdx_perm {α : Type} (x : α) :
    ∀ (n : ℕ) (l : List α), n ≤ l.length → List.Perm (List.insertIdx n x l) (x :: l) := by
  intro n
  induction n with
  | zero => intro l _; exact List.Perm.refl _
  | succ n ih =>
    intro l h
    cases l with
    | nil => simp at h
    | cons a l =>
      rw [List.insertIdx_succ_cons]
      exact ((ih l (by simpa using h)).cons a).trans (List.Perm.swap x a l)

theorem changeProd_cons (t : Trend) (l : List Trend) :
    changeProd (t :: l) = (1 + t.change) * changeProd l := by
  simp [changeProd]

theorem changeProd_append (l₁ l₂ : List Trend) :
    changeProd (l₁ ++ l₂) = changeProd l₁ * changeProd l₂ := by
  simp [changeProd]

theorem changeProd_reverse (l : List Trend) :
    changeProd l.reverse = changeProd l := by
  simp [changeProd, List.map_reverse, List.prod_reverse]

theorem changeProd_perm {l₁ l₂ : List Trend} (h : List.Perm l₁ l₂) :
    changeProd l₁ = changeProd l₂ :=
  List.Perm.prod_eq (h.map _)

theorem perm_of_sublist_diff {ts l : List Trend} (h : List.Sublist ts l) :
    List.Perm (ts ++ l.diff ts) l :=
  List.subperm_append_diff_self_of_count_le fun x _ => h.count_le x

theorem length_diff_of_sublist {ts l : List Trend} (h : List.Sublist ts l) :
    (l.diff ts).length = l.length - ts.length := by
  have hl := (perm_of_sublist_diff h).length_eq
  simp only [List.length_append] at hl
  omega

theorem changeProd_replace (l ts : List Trend) (i : ℕ) (hsub : List.Sublist ts l)
    (hi : i ≤ l.length - ts.length)
    (hc : 1 + (concatenateTrends ts).change = changeProd ts) :
    changeProd (replaceByConcatenation l i ts) = changeProd l := by
  have hperm := perm_of_sublist_diff hsub
  have hlen := length_diff_of_sublist hsub
  rw [replaceByConcatenation, foldl_erase_eq_diff]
  rw [changeProd_perm (insertIdx_perm _ i _ (by omega))]
  rw [changeProd_cons, hc, ← changeProd_append, changeProd_perm hperm]

theorem one_add_concat_pair (a b : Trend) :
    1 + (concatenateTrends [a, b]).change = changeProd [a, b] := by
  simp [concatenateTrends, Trend.add, changeProd]
  try ring

theorem one_add_concat_triple (a b c : Trend) :
    1 + (concatenateTrends [a, b, c]).change = changeProd [a, b, c] := by
  simp [concatenateTrends, Trend.add, changeProd]
  try ring

theorem trendsLoop_changeProd (cfg : TrendsLimits) :
    ∀ (fuel : ℕ) (l : List Trend) (i : ℕ),
      changeProd (trendsLoop cfg fuel l i).1 = changeProd l := by
  intro fuel
  induction fuel with
  | zero => intro l i; rfl
  | succ fuel ih =>
    intro l i
    simp only [trendsLoop]
    split
    · split
      · rw [ih]
        exact changeProd_replace l _ i (pair_sublist l i (by omega)) (by simp; omega)
          (one_add_concat_pair _ _)
      · split
        · rw [ih]
          exact changeProd_replace l _ (i + 1) (pair_sublist l (i + 1) (by omega)) (by simp; omega)
            (one_add_concat_pair _ _)
        · split
          · rw [ih]
            exact changeProd_replace l _ i (triple_sublist l i (by omega)) (by simp; omega)
              (one_add_concat_triple _ _ _)
          · exact ih l (i + 1)
    · rfl

theorem changeProd_compressRaw (cfg : TrendsLimits) (raw : List Trend) :
    changeProd (trendsCompressRaw cfg raw) = changeProd raw := by
  simp only [trendsCompressRaw]
  rw [changeProd_reverse]
  have hloop : changeProd (trendsLoop cfg (3 * raw.reverse.length + 1) raw.reverse 0).1 =
      changeProd raw := by
    rw [trendsLoop_changeProd, changeProd_reverse]
  split
  · split
    · split
      · rw [changeProd_replace _ _ 0 (pair_sublist _ _ (by omega)) (by simp)
          (one_add_concat_pair _ _)]
        exact hloop
      · exact hloop
    · exact hloop
  · exact hloop

theorem trendsOfTicks_cons₂ (t1 t2 : Tick) (rest : List Tick) :
    trendsOfTicks (t1 :: t2 :: rest) =
      { change := if t1.price ≠ 0 then (t2.price - t1.price) / t1.price else 0,
        startTimestamp := t1.timestamp, endTimestamp := t2.timestamp } ::
        trendsOfTicks (t2 :: rest) := by
  simp [trendsOfTicks]

theorem changeProd_trendsOfTicks :
    ∀ (ticks : List Tick) (h : ticks ≠ []), (∀ t ∈ ticks, 0 < t.price) →
      changeProd (trendsOfTicks ticks) = (ticks.getLast h).price / (ticks.head h).price := by
  intro ticks
  induction ticks with
  | nil => intro h; exact absurd rfl h
  | cons t1 rest ih =>
    intro h hpos
    cases rest with
    | nil =>
      have h1 : t1.price ≠ 0 := (hpos t1 (by simp)).ne'
      simp [trendsOfTicks, changeProd, div_self h1]
    | cons t2 rest2 =>
      rw [trendsOfTicks_cons₂, changeProd_cons]
      rw [ih (by simp) (fun t ht => hpos t (by simp [ht]))]
      have h1 : t1.price ≠ 0 := (hpos t1 (by simp)).ne'
      have h2 : t2.price ≠ 0 := (hpos t2 (by simp)).ne'
      rw [if_pos h1]
      have hlast : (t1 :: t2 :: rest2).getLast h = (t2 :: rest2).getLast (by simp) :=
        List.getLast_cons (by simp)
      rw [hlast]
      simp only [List.head_cons]
      field_simp
      ring

/-- C2: merging two segments composes their fractional changes multiplicatively
(`Trend.__add__` produces change `(1+c1)(1+c2)-1`); consequently every merge
step, and hence the whole compressor under any limits configuration, preserves
the product of `1 + change` over the segment list; and for a non-empty tick
sequence with strictly positive prices that product equals the last price
divided by the first price. -/
theorem c2_merge_and_conservation :
    (∀ t other : Trend,
      (Trend.add t other).change = (1 + t.change) * (1 + other.change) - 1) ∧
    (∀ (cfg : TrendsLimits) (raw : List Trend),
      changeProd (trendsCompressRaw cfg raw) = changeProd raw) ∧
    (∀ (cfg : TrendsLimits) (ticks : List Tick) (h : ticks ≠ []),
      (∀ t ∈ ticks, 0 < t.price) →
      changeProd (trendsCompressTicks cfg ticks) =
        (ticks.getLast h).price / (ticks.head h).price) :=
  ⟨fun _ _ => rfl, changeProd_compressRaw, fun cfg ticks h hpos => by
    rw [trendsCompressTicks, changeProd_compressRaw, changeProd_trendsOfTicks ticks h hpos]⟩

theorem c2_witness :
    changeProd (trendsCompressTicks noLimits [⟨0, 4, none⟩, ⟨1, 2, none⟩]) =
      (([⟨0, 4, none⟩, ⟨1, 2, none⟩] : List Tick).getLast (by simp)).price /
        (([⟨0, 4, none⟩, ⟨1, 2, none⟩] : List Tick).head (by simp)).price :=
  c2_merge_and_conservation.2.2 noLimits [⟨0, 4, none⟩, ⟨1, 2, none⟩] (by simp)
    (by intro t ht
        simp only [List.mem_cons, List.mem_singleton] at ht
        rcases ht with rfl | rfl | h
        · norm_num
        · norm_num
        · simp at h)

/-! ### Claim C1 (amended): helpers for the uncapped no-same-sign invariant -/

theorem areWithinLimits_noLimits (ts : List Trend) :
    areWithinLimits noLimits ts = true := rfl

theorem codir_false_iff (a b : Trend) :
    a.isCodirectionalWith b = false ↔ a.change * b.change < 0 := by
  simp [Trend.isCodirectionalWith]

theorem chainedBack_getElem {l : List Trend} (hc : ChainedBack l)
    (k : ℕ) (h : k + 1 < l.length) :
    (l[k]).startTimestamp = (l[k+1]).endTimestamp := by
  have := List.chain'_iff_get.mp hc k (by omega)
  simpa [List.get_eq_getElem] using this

theorem start_lt_of_chained {l : List Trend} (hc : ChainedBack l) (hp : ProperAll l) :
    ∀ (j k : ℕ) (hjk : j < k) (hk : k < l.length),
      (l[k]).startTimestamp < (l[j]).startTimestamp := by
  intro j k
  induction k with
  | zero => omega
  | succ k ih =>
    intro hjk hk
    have hstep : (l[k+1]).startTimestamp < (l[k]).startTimestamp := by
      have h1 := chainedBack_getElem hc k hk
      have h2 := hp (l[k+1]) (List.getElem_mem hk)
      omega
    rcases Nat.lt_or_ge j k with hj | hj
    · exact hstep.trans (ih hj (by omega))
    · have hje : j = k := by omega
      subst hje
      exact hstep

theorem nodup_of_chained_proper {l : List Trend} (hc : ChainedBack l)
    (hp : ProperAll l) : l.Nodup := by
  refine List.pairwise_iff_getElem.mpr ?_
  intro a b ha hb hab heq
  have := start_lt_of_chained hc hp a b hab hb
  rw [heq] at this
  omega

theorem not_mem_take {l : List Trend} (i k : ℕ) (hik : i ≤ k) (hk : k < l.length)
    (hnd : l.Nodup) : l[k] ∉ l.take i := by
  intro hmem
  obtain ⟨j, hj, hje⟩ := List.getElem_of_mem hmem
  have hjlen : j < l.length := by
    have := hj
    simp [List.length_take] at this
    omega
  have hji : j < k := by
    have := hj
    simp [List.length_take] at this
    omega
  rw [List.getElem_take] at hje
  exact (List.pairwise_iff_getElem.mp hnd j k hjlen hk hji) hje

theorem insertIdx_at_append {α : Type} :
    ∀ (A C : List α) (x : α), List.insertIdx A.length x (A ++ C) = A ++ x :: C := by
  intro A
  induction A with
  | nil => intro C x; rfl
  | cons a A ih =>
    intro C x
    show List.insertIdx (A.length + 1) x (a :: (A ++ C)) = a :: (A ++ x :: C)
    rw [List.insertIdx_succ_cons, ih]

theorem erase_pair_splice (A B : List Trend) (a b : Trend)
    (ha : a ∉ A) (hb : b ∉ A) :
    ((A ++ a :: b :: B).erase a).erase b = A ++ B := by
  rw [List.erase_append_right _ ha, List.erase_cons_head,
      List.erase_append_right _ hb, List.erase_cons_head]

theorem erase_triple_splice (A B : List Trend) (a b c : Trend)
    (ha : a ∉ A) (hb : b ∉ A) (hc : c ∉ A) :
    (((A ++ a :: b :: c :: B).erase a).erase b).erase c = A ++ B := by
  rw [List.erase_append_right _ ha, List.erase_cons_head,
      List.erase_append_right _ hb, List.erase_cons_head,
      List.erase_append_right _ hc, List.erase_cons_head]

theorem replace_pair_at (A B : List Trend) (a b : Trend)
    (ha : a ∉ A) (hb : b ∉ A) :
    replaceByConcatenation (A ++ a :: b :: B) A.length [a, b] =
      A ++ Trend.add a b :: B := by
  rw [replaceByConcatenation]
  have h1 : [a, b].foldl List.erase (A ++ a :: b :: B) = A ++ B := by
    show ((A ++ a :: b :: B).erase a).erase b = A ++ B
    exact erase_pair_splice A B a b ha hb
  rw [h1]
  exact insertIdx_at_append A B (concatenateTrends [a, b])

theorem replace_triple_at (A B : List Trend) (a b c : Trend)
    (ha : a ∉ A) (hb : b ∉ A) (hc : c ∉ A) :
    replaceByConcatenation (A ++ a :: b :: c :: B) A.length [a, b, c] =
      A ++ Trend.add (Trend.add a b) c :: B := by
  rw [replaceByConcatenation]
  have h1 : [a, b, c].foldl List.erase (A ++ a :: b :: c :: B) = A ++ B := by
    show (((A ++ a :: b :: c :: B).erase a).erase b).erase c = A ++ B
    exact erase_triple_splice A B a b c ha hb hc
  rw [h1]
  exact insertIdx_at_append A B (concatenateTrends [a, b, c])

theorem decomp_two (l : List Trend) (p : ℕ) (h : p + 1 < l.length) :
    l = l.take p ++ (l[p] :: l[p+1] :: l.drop (p + 2)) := by
  conv_lhs => rw [← List.take_append_drop p l]
  congr 1
  rw [List.drop_eq_getElem_cons (Nat.lt_of_succ_lt h)]
  congr 1
  exact List.drop_eq_getElem_cons h

theorem decomp_three (l : List Trend) (p : ℕ) (h : p + 2 < l.length) :
    l = l.take p ++ (l[p] :: l[p+1] :: l[p+2] :: l.drop (p + 3)) := by
  conv_lhs => rw [← List.take_append_drop p l]
  congr 1
  rw [List.drop_eq_getElem_cons (show p < l.length by omega)]
  congr 1
  rw [List.drop_eq_getElem_cons (show p + 1 < l.length by omega)]
  congr 1
  exact List.drop_eq_getElem_cons h

theorem add_pair_eq (a b : Trend) (hab : a.startTimestamp = b.endTimestamp) :
    Trend.add a b =
      { change := (1 + a.change) * (1 + b.change) - 1,
        startTimestamp := b.startTimestamp, endTimestamp := a.endTimestamp } := by
  simp [Trend.add, hab]

theorem add_triple_eq (a b c : Trend) (hab : a.startTimestamp = b.endTimestamp)
    (hbc : b.startTimestamp = c.endTimestamp) :
    Trend.add (Trend.add a b) c =
      { change := (1 + ((1 + a.change) * (1 + b.change) - 1)) * (1 + c.change) - 1,
        startTimestamp := c.startTimestamp, endTimestamp := a.endTimestamp } := by
  rw [add_pair_eq a b hab]
  exact add_pair_eq _ c hbc

theorem getLast_start_lt_head_end (xs : List Trend) (hxs : xs ≠ [])
    (hc : ChainedBack xs) (hp : ProperAll xs) :
    (xs.getLast hxs).startTimestamp < (xs.head hxs).endTimestamp := by
  have hpos : 0 < xs.length := List.length_pos.mpr hxs
  have hh : xs.head hxs = xs[0] := by
    cases xs with
    | nil => simp at hxs
    | cons a t => rfl
  rcases Nat.lt_or_ge 1 xs.length with h2 | h1
  · have hlt := start_lt_of_chained hc hp 0 (xs.length - 1) (by omega) (by omega)
    have hp0 := hp (xs[0]) (List.getElem_mem hpos)
    rw [List.getLast_eq_getElem, hh]
    omega
  · have hl1 : xs.length = 1 := by omega
    obtain ⟨a, rfl⟩ := List.length_eq_one.mp hl1
    simpa using hp a (by simp)

theorem chained_splice (A B xs : List Trend) (m : Trend) (hxs : xs ≠ [])
    (hms : m.startTimestamp = (xs.getLast hxs).startTimestamp)
    (hme : m.endTimestamp = (xs.head hxs).endTimestamp)
    (hc : ChainedBack (A ++ (xs ++ B))) :
    ChainedBack (A ++ m :: B) := by
  rw [ChainedBack, List.chain'_append] at hc ⊢
  obtain ⟨hA, hrest, hbord⟩ := hc
  rw [List.chain'_append] at hrest
  obtain ⟨hxsc, hB, hbord2⟩ := hrest
  refine ⟨hA, ?_, ?_⟩
  · rw [List.chain'_cons']
    refine ⟨?_, hB⟩
    intro y hy
    have hgl : xs.getLast? = some (xs.getLast hxs) :=
      List.getLast?_eq_getLast_of_ne_nil hxs
    have := hbord2 (xs.getLast hxs) (by simp [hgl]) y hy
    rw [hms]
    exact this
  · intro x hx
    have hhead : (xs ++ B).head? = some (xs.head hxs) := by
      cases xs with
      | nil => simp at hxs
      | cons a t => rfl
    have hxh := hbord x hx (xs.head hxs) (by simp [hhead])
    intro y hy
    have hym : y = m := by
      have h2 := hy
      simp at h2
      exact h2.symm
    subst hym
    rw [hme]
    exact hxh

theorem proper_splice (A B xs : List Trend) (m : Trend)
    (hm : m.startTimestamp < m.endTimestamp)
    (hp : ProperAll (A ++ (xs ++ B))) :
    ProperAll (A ++ m :: B) := by
  intro t ht
  rcases List.mem_append.mp ht with hA | hmB
  · exact hp t (by simp [hA])
  · rcases List.mem_cons.mp hmB with rfl | hB
    · exact hm
    · exact hp t (by simp [hB])

theorem invariants_after_merge (A B xs : List Trend) (m : Trend) (i : ℕ)
    (hxs : xs ≠ [])
    (hms : m.startTimestamp = (xs.getLast hxs).startTimestamp)
    (hme : m.endTimestamp = (xs.head hxs).endTimestamp)
    (hiA : i ≤ A.length)
    (hc : ChainedBack (A ++ (xs ++ B))) (hp : ProperAll (A ++ (xs ++ B)))
    (hbelow : NoCodirBelow (A ++ (xs ++ B)) i) :
    ChainedBack (A ++ m :: B) ∧ ProperAll (A ++ m :: B) ∧
    NoCodirBelow (A ++ m :: B) (i - 2) ∧ CodirFreeAt (A ++ m :: B) (i - 2) := by
  have hxl : 0 < xs.length := List.length_pos.mpr hxs
  have hxs_chain : ChainedBack xs := by
    have h1 := (List.chain'_append.mp hc).2.1
    exact (List.chain'_append.mp h1).1
  have hxs_prop : ProperAll xs := fun t ht => hp t (by simp [ht])
  have hm_prop : m.startTimestamp < m.endTimestamp := by
    rw [hms, hme]
    exact getLast_start_lt_head_end xs hxs hxs_chain hxs_prop
  refine ⟨chained_splice A B xs m hxs hms hme hc,
    proper_splice A B xs m hm_prop hp, ?_, ?_⟩
  · intro k h hk
    have hkA : k + 1 < A.length := by omega
    have hold := hbelow k (by simp; omega) (by omega)
    rw [List.getElem_append_left (by omega), List.getElem_append_left hkA] at hold ⊢
    exact hold
  · intro h1 h
    have hold := hbelow (i - 2) (by simp; omega) (by omega)
    rw [List.getElem_append_left (show i - 2 < A.length by omega),
        List.getElem_append_left (show i - 2 + 1 < A.length by omega)] at hold
    rw [List.getElem_append_left (show i - 2 < A.length by omega),
        List.getElem_append_left (show i - 2 + 1 < A.length by omega)]
    exact hold

theorem replace_pair_spliced (l : List Trend) (i : ℕ) (h : i + 1 < l.length)
    (hnd : l.Nodup) :
    replaceByConcatenation l i [l[i], l[i+1]] =
      l.take i ++ Trend.add (l[i]) (l[i+1]) :: l.drop (i + 2) := by
  have ha : l[i] ∉ l.take i :=
    not_mem_take i i (le_refl i) (Nat.lt_of_succ_lt h) hnd
  have hb : l[i+1] ∉ l.take i := not_mem_take i (i + 1) (by omega) h hnd
  have key := replace_pair_at (l.take i) (l.drop (i + 2))
    (l[i]) (l[i+1]) ha hb
  rw [show (l.take i).length = i from by simp [List.length_take]; omega] at key
  have harg := congrArg
    (fun X => replaceByConcatenation X i [l[i], l[i+1]])
    (decomp_two l i h)
  exact harg.trans key

theorem replace_triple_spliced (l : List Trend) (i : ℕ) (h : i + 2 < l.length)
    (hnd : l.Nodup) :
    replaceByConcatenation l i [l[i], l[i+1], l[i+2]] =
      l.take i ++
        Trend.add (Trend.add (l[i]) (l[i+1])) (l[i+2]) ::
        l.drop (i + 3) := by
  have ha : l[i] ∉ l.take i := not_mem_take i i (le_refl i) (by omega) hnd
  have hb : l[i+1] ∉ l.take i := not_mem_take i (i + 1) (by omega) (by omega) hnd
  have hcm : l[i+2] ∉ l.take i := not_mem_take i (i + 2) (by omega) h hnd
  have key := replace_triple_at (l.take i) (l.drop (i + 3))
    (l[i]) (l[i+1]) (l[i+2]) ha hb hcm
  rw [show (l.take i).length = i from by simp [List.length_take]; omega] at key
  have harg := congrArg
    (fun X => replaceByConcatenation X i [l[i], l[i+1], l[i+2]])
    (decomp_three l i h)
  exact harg.trans key

theorem chained_proper_after_merge (A B xs : List Trend) (m : Trend) (hxs : xs ≠ [])
    (hms : m.startTimestamp = (xs.getLast hxs).startTimestamp)
    (hme : m.endTimestamp = (xs.head hxs).endTimestamp)
    (hc : ChainedBack (A ++ (xs ++ B))) (hp : ProperAll (A ++ (xs ++ B))) :
    ChainedBack (A ++ m :: B) ∧ ProperAll (A ++ m :: B) := by
  have hxs_chain : ChainedBack xs := by
    have h1 := (List.chain'_append.mp hc).2.1
    exact (List.chain'_append.mp h1).1
  have hxs_prop : ProperAll xs := fun t ht => hp t (by simp [ht])
  have hm_prop : m.startTimestamp < m.endTimestamp := by
    rw [hms, hme]
    exact getLast_start_lt_head_end xs hxs hxs_chain hxs_prop
  exact ⟨chained_splice A B xs m hxs hms hme hc, proper_splice A B xs m hm_prop hp⟩

theorem chained_cast (l L : List Trend) (h : l = L) (hc : ChainedBack l) :
    ChainedBack L := by subst h; exact hc

theorem proper_cast (l L : List Trend) (h : l = L) (hp : ProperAll l) :
    ProperAll L := by subst h; exact hp

theorem nocodir_cast (l L : List Trend) (i : ℕ) (h : l = L) (hb : NoCodirBelow l i) :
    NoCodirBelow L i := by subst h; exact hb

theorem merge_pair_chained_proper (l : List Trend) (p : ℕ) (h : p + 1 < l.length)
    (hc : ChainedBack l) (hp : ProperAll l) :
    ChainedBack (l.take p ++ Trend.add (l[p]) (l[p+1]) :: l.drop (p + 2)) ∧
    ProperAll (l.take p ++ Trend.add (l[p]) (l[p+1]) :: l.drop (p + 2)) := by
  have hchain := chainedBack_getElem hc p h
  refine chained_proper_after_merge (l.take p) (l.drop (p + 2))
    [l[p], l[p+1]]
    (Trend.add (l[p]) (l[p+1])) (by simp) ?_ ?_ ?_ ?_
  · rw [add_pair_eq _ _ hchain]; simp
  · rw [add_pair_eq _ _ hchain]; simp
  · exact chained_cast _ _ (by simpa using decomp_two l p h) hc
  · exact proper_cast _ _ (by simpa using decomp_two l p h) hp

theorem merge_triple_chained_proper (l : List Trend) (p : ℕ) (h : p + 2 < l.length)
    (hc : ChainedBack l) (hp : ProperAll l) :
    ChainedBack (l.take p ++
      Trend.add (Trend.add (l[p]) (l[p+1])) (l[p+2]) :: l.drop (p + 3)) ∧
    ProperAll (l.take p ++
      Trend.add (Trend.add (l[p]) (l[p+1])) (l[p+2]) :: l.drop (p + 3)) := by
  have hchain1 := chainedBack_getElem hc p (by omega)
  have hchain2 := chainedBack_getElem hc (p + 1) h
  refine chained_proper_after_merge (l.take p) (l.drop (p + 3))
    [l[p], l[p+1], l[p+2]]
    (Trend.add (Trend.add (l[p]) (l[p+1])) (l[p+2]))
    (by simp) ?_ ?_ ?_ ?_
  · rw [add_triple_eq _ _ _ hchain1 hchain2]; simp
  · rw [add_triple_eq _ _ _ hchain1 hchain2]; simp
  · exact chained_cast _ _ (by simpa using decomp_three l p h) hc
  · exact proper_cast _ _ (by simpa using decomp_three l p h) hp

set_option maxHeartbeats 1000000 in
theorem trendsLoop_chained_proper (cfg : TrendsLimits) :
    ∀ (fuel : ℕ) (l : List Trend) (i : ℕ), ChainedBack l → ProperAll l →
      ChainedBack (trendsLoop cfg fuel l i).1 ∧ ProperAll (trendsLoop cfg fuel l i).1 := by
  intro fuel
  induction fuel with
  | zero => intro l i hc hp; exact ⟨hc, hp⟩
  | succ fuel ih =>
    intro l i hc hp
    have hnd := nodup_of_chained_proper hc hp
    simp only [trendsLoop]
    split
    next h =>
      split
      next hcond1 =>
        rw [replace_pair_spliced l i (by omega) hnd]
        have hglue := merge_pair_chained_proper l i (by omega) hc hp
        exact ih _ _ hglue.1 hglue.2
      next hcond1 =>
        split
        next hcond2 =>
          rw [replace_pair_spliced l (i + 1) (by omega) hnd]
          have hglue := merge_pair_chained_proper l (i + 1) (by omega) hc hp
          exact ih _ _ hglue.1 hglue.2
        next hcond2 =>
          split
          next hcond3 =>
            rw [replace_triple_spliced l i (by omega) hnd]
            have hglue := merge_triple_chained_proper l i (by omega) hc hp
            exact ih _ _ hglue.1 hglue.2
          next hcond3 => exact ih l (i + 1) hc hp
    next h => exact ⟨hc, hp⟩

theorem merge_pair_invariants (l : List Trend) (p i : ℕ) (h : p + 1 < l.length)
    (hip : i ≤ p) (hc : ChainedBack l) (hpr : ProperAll l) (hb : NoCodirBelow l i) :
    ChainedBack (l.take p ++ Trend.add (l[p]) (l[p+1]) :: l.drop (p + 2)) ∧
    ProperAll (l.take p ++ Trend.add (l[p]) (l[p+1]) :: l.drop (p + 2)) ∧
    NoCodirBelow (l.take p ++ Trend.add (l[p]) (l[p+1]) :: l.drop (p + 2)) (i - 2) ∧
    CodirFreeAt (l.take p ++ Trend.add (l[p]) (l[p+1]) :: l.drop (p + 2)) (i - 2) := by
  have hchain := chainedBack_getElem hc p h
  refine invariants_after_merge (l.take p) (l.drop (p + 2))
    [l[p], l[p+1]]
    (Trend.add (l[p]) (l[p+1])) i (by simp) ?_ ?_ ?_ ?_ ?_ ?_
  · rw [add_pair_eq _ _ hchain]; simp
  · rw [add_pair_eq _ _ hchain]; simp
  · simp [List.length_take]; omega
  · exact chained_cast _ _ (by simpa using decomp_two l p h) hc
  · exact proper_cast _ _ (by simpa using decomp_two l p h) hpr
  · exact nocodir_cast _ _ i (by simpa using decomp_two l p h) hb

theorem merge_triple_invariants (l : List Trend) (p i : ℕ) (h : p + 2 < l.length)
    (hip : i ≤ p) (hc : ChainedBack l) (hpr : ProperAll l) (hb : NoCodirBelow l i) :
    ChainedBack (l.take p ++
      Trend.add (Trend.add (l[p]) (l[p+1])) (l[p+2]) :: l.drop (p + 3)) ∧
    ProperAll (l.take p ++
      Trend.add (Trend.add (l[p]) (l[p+1])) (l[p+2]) :: l.drop (p + 3)) ∧
    NoCodirBelow (l.take p ++
      Trend.add (Trend.add (l[p]) (l[p+1])) (l[p+2]) :: l.drop (p + 3)) (i - 2) ∧
    CodirFreeAt (l.take p ++
      Trend.add (Trend.add (l[p]) (l[p+1])) (l[p+2]) :: l.drop (p + 3)) (i - 2) := by
  have hchain1 := chainedBack_getElem hc p (by omega)
  have hchain2 := chainedBack_getElem hc (p + 1) h
  refine invariants_after_merge (l.take p) (l.drop (p + 3))
    [l[p], l[p+1], l[p+2]]
    (Trend.add (Trend.add (l[p]) (l[p+1])) (l[p+2])) i
    (by simp) ?_ ?_ ?_ ?_ ?_ ?_
  · rw [add_triple_eq _ _ _ hchain1 hchain2]; simp
  · rw [add_triple_eq _ _ _ hchain1 hchain2]; simp
  · simp [List.length_take]; omega
  · exact chained_cast _ _ (by simpa using decomp_three l p h) hc
  · exact proper_cast _ _ (by simpa using decomp_three l p h) hpr
  · exact nocodir_cast _ _ i (by simpa using decomp_three l p h) hb

set_option maxHeartbeats 1000000 in
theorem trendsLoop_noLimits_invariant :
    ∀ (fuel : ℕ) (l : List Trend) (i : ℕ),
      3 * l.length - i < fuel →
      ChainedBack l → ProperAll l → NoCodirBelow l i → CodirFreeAt l i →
      (i ≠ 0 → i + 2 ≤ l.length) →
      ChainedBack (trendsLoop noLimits fuel l i).1 ∧
      ProperAll (trendsLoop noLimits fuel l i).1 ∧
      ¬((trendsLoop noLimits fuel l i).2 + 2 < (trendsLoop noLimits fuel l i).1.length) ∧
      ((trendsLoop noLimits fuel l i).2 ≠ 0 →
        (trendsLoop noLimits fuel l i).2 + 2 ≤ (trendsLoop noLimits fuel l i).1.length) ∧
      NoCodirBelow (trendsLoop noLimits fuel l i).1 (trendsLoop noLimits fuel l i).2 ∧
      CodirFreeAt (trendsLoop noLimits fuel l i).1 (trendsLoop noLimits fuel l i).2 := by
  intro fuel
  induction fuel with
  | zero => intro l i hm; exact absurd hm (Nat.not_lt_zero _)
  | succ fuel ih =>
    intro l i hm hc hpr hb hat hq
    have hnd := nodup_of_chained_proper hc hpr
    simp only [trendsLoop]
    split
    next h =>
      split
      next hcond1 =>
        rw [replace_pair_spliced l i (by omega) hnd]
        have hglue := merge_pair_invariants l i i (by omega) (le_refl i) hc hpr hb
        exact ih _ (i - 2)
          (by simp [List.length_take, List.length_drop]; omega)
          hglue.1 hglue.2.1 hglue.2.2.1 hglue.2.2.2
          (by intro hne; simp [List.length_take, List.length_drop]; omega)
      next hcond1 =>
        split
        next hcond2 =>
          rw [replace_pair_spliced l (i + 1) (by omega) hnd]
          have hglue := merge_pair_invariants l (i + 1) i (by omega) (by omega) hc hpr hb
          exact ih _ (i - 2)
            (by simp [List.length_take, List.length_drop]; omega)
            hglue.1 hglue.2.1 hglue.2.2.1 hglue.2.2.2
            (by intro hne; simp [List.length_take, List.length_drop]; omega)
        next hcond2 =>
          split
          next hcond3 =>
            rw [replace_triple_spliced l i (by omega) hnd]
            have hglue := merge_triple_invariants l i i (by omega) (le_refl i) hc hpr hb
            exact ih _ (i - 2)
              (by simp [List.length_take, List.length_drop]; omega)
              hglue.1 hglue.2.1 hglue.2.2.1 hglue.2.2.2
              (by intro hne; simp [List.length_take, List.length_drop]; omega)
          next hcond3 =>
            refine ih l (i + 1) (by omega) hc hpr ?_ ?_ (by intro _; omega)
            · intro k hk hki
              rcases Nat.lt_or_ge k i with hlt | hge
              · exact hb k hk hlt
              · have hk_eq : k = i := by omega
                subst hk_eq
                simp only [areWithinLimits_noLimits, Bool.and_true, Bool.not_eq_true] at hcond1
                exact hcond1
            · intro h1 hk
              simp only [areWithinLimits_noLimits, Bool.and_true, Bool.not_eq_true] at hcond2
              exact hcond2
    next h =>
      exact ⟨hc, hpr, h, hq, hb, hat⟩

theorem chainedBack_reverse_of_fwd {l : List Trend} (h : ChainedFwd l) :
    ChainedBack l.reverse :=
  List.chain'_reverse.mpr (List.Chain'.imp (fun _ _ hab => hab.symm) h)

theorem chainedFwd_reverse_of_back {l : List Trend} (h : ChainedBack l) :
    ChainedFwd l.reverse :=
  List.chain'_reverse.mpr (List.Chain'.imp (fun _ _ hab => hab.symm) h)

theorem properAll_reverse {l : List Trend} (h : ProperAll l) : ProperAll l.reverse :=
  fun t ht => h t (List.mem_reverse.mp ht)

theorem noAdjacent_iff_chain (l : List Trend) :
    NoAdjacentSameSign l ↔ List.Chain' (fun a b => a.change * b.change < 0) l := by
  rw [List.chain'_iff_get]
  constructor
  · intro h i hi
    exact h i (by omega)
  · intro h k hk
    exact h k (by omega)

theorem noAdjacent_reverse {l : List Trend} (h : NoAdjacentSameSign l) :
    NoAdjacentSameSign l.reverse := by
  rw [noAdjacent_iff_chain] at h ⊢
  rw [List.chain'_reverse]
  refine List.Chain'.imp (fun a b hab => ?_) h
  show b.change * a.change < 0
  rw [mul_comm]
  exact hab

theorem noAdjacent_of_short {l : List Trend} (h : l.length ≤ 1) :
    NoAdjacentSameSign l := fun k hk => absurd hk (by omega)

theorem replace_two_whole (x y : Trend) :
    replaceByConcatenation [x, y] 0 [x, y] = [concatenateTrends [x, y]] := by
  simp [replaceByConcatenation]

theorem twoCase_chained_proper (cfg : TrendsLimits) (l : List Trend) (i : ℕ)
    (hc : ChainedBack l) (hp : ProperAll l) :
    ChainedBack (if l.length = 2 then
        if h : i + 1 < l.length then
          if (l[i]).isCodirectionalWith (l[i + 1]) &&
              areWithinLimits cfg [l[i], l[i + 1]] then
            replaceByConcatenation l 0 [l[i], l[i + 1]]
          else l
        else l
      else l) ∧
    ProperAll (if l.length = 2 then
        if h : i + 1 < l.length then
          if (l[i]).isCodirectionalWith (l[i + 1]) &&
              areWithinLimits cfg [l[i], l[i + 1]] then
            replaceByConcatenation l 0 [l[i], l[i + 1]]
          else l
        else l
      else l) := by
  split
  next h2 =>
    split
    next hguard =>
      have hi0 : i = 0 := by omega
      subst hi0
      split
      next hmerge =>
        rcases List.length_eq_two.mp h2 with ⟨x, y, hxy⟩
        subst hxy
        have hchain : x.startTimestamp = y.endTimestamp := by
          have h' := chainedBack_getElem hc 0 (by simp)
          simpa using h'
        have hxp : x.startTimestamp < x.endTimestamp := hp x (by simp)
        have hyp : y.startTimestamp < y.endTimestamp := hp y (by simp)
        constructor
        · show ChainedBack (replaceByConcatenation [x, y] 0 [x, y])
          rw [replace_two_whole]
          simp [ChainedBack]
        · show ProperAll (replaceByConcatenation [x, y] 0 [x, y])
          rw [replace_two_whole]
          intro t ht
          have ht' : t = concatenateTrends [x, y] := by simpa using ht
          subst ht'
          show (Trend.add x y).startTimestamp < (Trend.add x y).endTimestamp
          rw [add_pair_eq x y hchain]
          show y.startTimestamp < x.endTimestamp
          omega
      next hmerge => exact ⟨hc, hp⟩
    next hguard => exact ⟨hc, hp⟩
  next h2 => exact ⟨hc, hp⟩

theorem twoCase_noAdjacent (l : List Trend) (i : ℕ)
    (hc : ChainedBack l) (hp : ProperAll l)
    (hExit : ¬(i + 2 < l.length))
    (hQ : i ≠ 0 → i + 2 ≤ l.length)
    (hBelow : NoCodirBelow l i) (hAt : CodirFreeAt l i) :
    NoAdjacentSameSign (if l.length = 2 then
        if h : i + 1 < l.length then
          if (l[i]).isCodirectionalWith (l[i + 1]) &&
              areWithinLimits noLimits [l[i], l[i + 1]] then
            replaceByConcatenation l 0 [l[i], l[i + 1]]
          else l
        else l
      else l) := by
  split
  next h2 =>
    split
    next hguard =>
      have hi0 : i = 0 := by omega
      subst hi0
      split
      next hmerge =>
        rcases List.length_eq_two.mp h2 with ⟨x, y, hxy⟩
        subst hxy
        show NoAdjacentSameSign (replaceByConcatenation [x, y] 0 [x, y])
        rw [replace_two_whole]
        exact noAdjacent_of_short (by simp)
      next hmerge =>
        intro k hk
        have hk0 : k = 0 := by omega
        subst hk0
        simp only [areWithinLimits_noLimits, Bool.and_true, Bool.not_eq_true] at hmerge
        rw [codir_false_iff] at hmerge
        exact hmerge
    next hguard =>
      exfalso
      rcases Nat.eq_zero_or_pos i with hi | hi
      · exact hguard (by omega)
      · have := hQ (by omega)
        omega
  next h2 =>
    intro k hk
    rcases Nat.lt_or_ge k i with hlt | hge
    · exact (codir_false_iff _ _).mp (hBelow k hk hlt)
    · have hkj : k = i := by omega
      subst hkj
      have h1k : 1 ≤ k := by omega
      exact (codir_false_iff _ _).mp (hAt h1k hk)

theorem trendsOfTicks_length (ticks : List Tick) :
    (trendsOfTicks ticks).length = ticks.length - 1 := by
  unfold trendsOfTicks
  rw [List.length_map, List.length_zip, List.length_tail]
  omega

theorem trendsOfTicks_start_end (ticks : List Tick) (k : ℕ)
    (hk : k < (trendsOfTicks ticks).length) :
    ∃ h : k + 1 < ticks.length,
      ((trendsOfTicks ticks)[k]).startTimestamp = (ticks[k]).timestamp ∧
      ((trendsOfTicks ticks)[k]).endTimestamp = (ticks[k + 1]).timestamp := by
  have hlen := trendsOfTicks_length ticks
  have h : k + 1 < ticks.length := by omega
  refine ⟨h, ?_, ?_⟩
  · simp [trendsOfTicks, List.getElem_zip, List.getElem_tail]
  · simp [trendsOfTicks, List.getElem_zip, List.getElem_tail]

theorem trendsOfTicks_chainedFwd (ticks : List Tick) :
    ChainedFwd (trendsOfTicks ticks) := by
  refine List.chain'_iff_get.mpr fun i hi => ?_
  obtain ⟨h1, hs1, he1⟩ := trendsOfTicks_start_end ticks i (by omega)
  obtain ⟨h2, hs2, he2⟩ := trendsOfTicks_start_end ticks (i + 1) (by omega)
  exact he1.trans hs2.symm

theorem trendsOfTicks_proper (ticks : List Tick)
    (hmono : TicksStrictlyIncreasing ticks) : ProperAll (trendsOfTicks ticks) := by
  intro t ht
  obtain ⟨k, hk, rfl⟩ := List.getElem_of_mem ht
  obtain ⟨h1, hs, he⟩ := trendsOfTicks_start_end ticks k hk
  rw [hs, he]
  exact List.pairwise_iff_getElem.mp hmono k (k + 1) (by omega) h1 (by omega)

theorem compress_chained_proper (cfg : TrendsLimits) (raw : List Trend)
    (hcF : ChainedFwd raw) (hpF : ProperAll raw) :
    ChainedFwd (trendsCompressRaw cfg raw) ∧ ProperAll (trendsCompressRaw cfg raw) := by
  have hc : ChainedBack raw.reverse := chainedBack_reverse_of_fwd hcF
  have hp : ProperAll raw.reverse := properAll_reverse hpF
  have hloop := trendsLoop_chained_proper cfg (3 * raw.reverse.length + 1) raw.reverse 0 hc hp
  have h2case := twoCase_chained_proper cfg
    (trendsLoop cfg (3 * raw.reverse.length + 1) raw.reverse 0).1
    (trendsLoop cfg (3 * raw.reverse.length + 1) raw.reverse 0).2 hloop.1 hloop.2
  exact ⟨chainedFwd_reverse_of_back h2case.1, properAll_reverse h2case.2⟩

theorem compress_noLimits_noAdjacent (raw : List Trend)
    (hcF : ChainedFwd raw) (hpF : ProperAll raw) :
    NoAdjacentSameSign (trendsCompressRaw noLimits raw) := by
  have hc : ChainedBack raw.reverse := chainedBack_reverse_of_fwd hcF
  have hp : ProperAll raw.reverse := properAll_reverse hpF
  have hinv := trendsLoop_noLimits_invariant (3 * raw.reverse.length + 1) raw.reverse 0
    (by omega) hc hp
    (fun k hk hk0 => absurd hk0 (Nat.not_lt_zero k))
    (fun h1 => absurd h1 (by omega))
    (fun h0 => absurd rfl h0)
  obtain ⟨hC, hP, hE, hQ, hB, hA⟩ := hinv
  have h2case := twoCase_noAdjacent
    (trendsLoop noLimits (3 * raw.reverse.length + 1) raw.reverse 0).1
    (trendsLoop noLimits (3 * raw.reverse.length + 1) raw.reverse 0).2 hC hP hE hQ hB hA
  exact noAdjacent_reverse h2case

set_option maxHeartbeats 2000000 in
/-- Claim C1 (amended): for every tick sequence with strictly increasing
timestamps, the *uncapped* compression — the `GLOBAL` configuration, whether
applied directly to the raw per-step trends or as the last of the progressive
views — leaves no two consecutive segments with the same sign: every adjacent
pair of output segments has a strictly negative product of fractional changes.
(The capped views may keep adjacent same-sign segments whose merge would
exceed the configured bound, as `c1_counterexample` shows, so the original
claim fails for them.) -/
theorem c1_amended (ticks : List Tick) (hmono : TicksStrictlyIncreasing ticks) :
    NoAdjacentSameSign (trendsCompressTicks noLimits ticks) ∧
    ∀ v, (generateAllViews ticks).getLast? = some v → NoAdjacentSameSign v := by
  have h0c := trendsOfTicks_chainedFwd ticks
  have h0p := trendsOfTicks_proper ticks hmono
  constructor
  · exact compress_noLimits_noAdjacent _ h0c h0p
  · intro v hv
    obtain ⟨V1, hV1⟩ : ∃ V1, trendsCompressRaw ⟨some 10, none⟩ (trendsOfTicks ticks) = V1 :=
      ⟨_, rfl⟩
    obtain ⟨V2, hV2⟩ : ∃ V2, trendsCompressRaw ⟨some 15, none⟩ V1 = V2 := ⟨_, rfl⟩
    obtain ⟨V3, hV3⟩ : ∃ V3, trendsCompressRaw ⟨some 30, none⟩ V2 = V3 := ⟨_, rfl⟩
    have h1 := compress_chained_proper ⟨some 10, none⟩ (trendsOfTicks ticks) h0c h0p
    rw [hV1] at h1
    have h2 := compress_chained_proper ⟨some 15, none⟩ V1 h1.1 h1.2
    rw [hV2] at h2
    have h3 := compress_chained_proper ⟨some 30, none⟩ V2 h2.1 h2.2
    rw [hV3] at h3
    have h4 := compress_noLimits_noAdjacent V3 h3.1 h3.2
    have hv4 : (generateAllViews ticks).getLast? = some (trendsCompressRaw noLimits V3) := by
      rw [← hV3, ← hV2, ← hV1]
      simp only [generateAllViews, trendsCompressTicks,
        List.getLast?_cons_cons, List.getLast?_singleton]
    rw [hv4] at hv
    injection hv with hv
    rw [← hv]
    exact h4

/-- Witness for the amended claim C1 at a concrete three-tick input
(+10 % then −10 %): the hypothesis of strictly increasing timestamps holds
and the uncapped compression output has no adjacent same-sign pair. -/
theorem c1_amended_witness :
    TicksStrictlyIncreasing [(⟨0, 100, none⟩ : Tick), ⟨1, 110, none⟩, ⟨2, 99, none⟩] ∧
    NoAdjacentSameSign (trendsCompressTicks noLimits
      [(⟨0, 100, none⟩ : Tick), ⟨1, 110, none⟩, ⟨2, 99, none⟩]) :=
  ⟨by unfold TicksStrictlyIncreasing; decide,
    (c1_amended _ (by unfold TicksStrictlyIncreasing; decide)).1⟩
